import Mathlib

/-!
Shallow embedding of the translation validator (`src/validator.ts` and
`src/types.ts`): placeholder extraction, the technical placeholder check,
batch-response processing, the merge and batching of the orchestrator, and model
initialization, together with theorems about them.
-/

set_option maxRecDepth 4000

namespace TranslationValidator

/-- `ValidationProblem.type` from `src/types.ts`:
`placeholder_mismatch | linguistic_review | grammar_issue`. -/
inductive ProblemType where
  | placeholder_mismatch
  | linguistic_review
  | grammar_issue
deriving DecidableEq, Repr

/-- `ValidationProblem` from `src/types.ts`. -/
structure ValidationProblem where
  type : ProblemType
  description : String
deriving DecidableEq, Repr

/-- `TranslationIssue` from `src/types.ts`. `suggestedFix` is an `Option`
because at runtime `validation.suggested_fix` may be absent (`undefined`)
even though the TS type declares a plain string. -/
structure TranslationIssue where
  msgid : String
  msgstr : String
  problems : List ValidationProblem
  suggestedFix : Option String
deriving DecidableEq, Repr

/-- One `{msgid, msgstr}` pair as built in `validatePoFile`. -/
structure Translation where
  msgid : String
  msgstr : String
deriving DecidableEq, Repr

/-- A parsed PO entry as read by `validatePoFile`: the original string and
the array of translation strings (`item.msgstr`). -/
structure PoItem where
  msgid : String
  msgstr : List String
deriving DecidableEq, Repr

/-- The character class `[sdfg]` of the regex `/%[sdfg]/g`. -/
def isSpecChar (c : Char) : Bool :=
  c = 's' || c = 'd' || c = 'f' || c = 'g'

/-- Left-to-right global matching of `/%[sdfg]/g` over the character list:
at a `%` followed by a spec character a two-character token is emitted and
the scan resumes after it; otherwise the scan advances one character.
Embeds `extractPlaceholders` (validator.ts line 43-46). -/
def extractAux : List Char → List String
  | [] => []
  | [_] => []
  | a :: c :: rest =>
    if a = '%' && isSpecChar c then String.mk [a, c] :: extractAux rest
    else extractAux (c :: rest)

/-- `extractPlaceholders(text)`: `text.match(/%[sdfg]/g) || []`. -/
def extractPlaceholders (text : String) : List String :=
  extractAux text.toList

/-- Spec-side: the token (if any) whose match starts at position `i`. -/
def tokenAt (l : List Char) (i : Nat) : Option String :=
  match l.get? i, l.get? (i + 1) with
  | some a, some c =>
    if a = '%' && isSpecChar c then some (String.mk [a, c]) else none
  | _, _ => none

/-- Spec-side: the left-to-right ordered list of occurrences of the
two-character tokens, by increasing start position. -/
def occurrencesSpec (l : List Char) : List String :=
  (List.range l.length).filterMap (tokenAt l)

theorem occurrencesSpec_nil : occurrencesSpec [] = [] := rfl

theorem tokenAt_cons_succ (a : Char) (l : List Char) (i : Nat) :
    tokenAt (a :: l) (i + 1) = tokenAt l i := by
  simp [tokenAt]

theorem occurrencesSpec_cons (a : Char) (l : List Char) :
    occurrencesSpec (a :: l) = (tokenAt (a :: l) 0).toList ++ occurrencesSpec l := by
  unfold occurrencesSpec
  rw [List.length_cons, List.range_succ_eq_map]
  rw [List.filterMap_cons]
  cases h : tokenAt (a :: l) 0 with
  | none =>
    simp only [h, Option.toList_none, List.nil_append]
    rw [List.filterMap_map]
    apply List.filterMap_congr
    intro i _
    simpa using tokenAt_cons_succ a l i
  | some t =>
    simp only [h, Option.toList_some, List.cons_append, List.nil_append]
    congr 1
    rw [List.filterMap_map]
    apply List.filterMap_congr
    intro i _
    simpa using tokenAt_cons_succ a l i

theorem tokenAt_nil (i : Nat) : tokenAt [] i = none := by
  simp [tokenAt]

theorem tokenAt_singleton (a : Char) (i : Nat) : tokenAt [a] i = none := by
  unfold tokenAt
  match i with
  | 0 => simp
  | n + 1 => simp

/-- The source scan agrees with the position-based specification. -/
theorem extractAux_eq_occurrencesSpec (l : List Char) :
    extractAux l = occurrencesSpec l := by
  match l with
  | [] => rfl
  | [a] =>
    rw [extractAux, occurrencesSpec_cons, tokenAt_singleton, occurrencesSpec_nil]
    rfl
  | a :: c :: rest =>
    rw [extractAux]
    by_cases h : a = '%' && isSpecChar c
    · rw [if_pos h, occurrencesSpec_cons, occurrencesSpec_cons]
      have h0 : tokenAt (a :: c :: rest) 0 = some (String.mk [a, c]) := by
        simp [tokenAt, h]
      have h1 : tokenAt (c :: rest) 0 = none := by
        unfold tokenAt
        have hc : isSpecChar c = true := by
          cases Bool.and_eq_true_iff.mp h with
          | intro h1 h2 => exact h2
        have hcp : ¬ (c = '%') := by
          intro he
          rw [he] at hc
          simp [isSpecChar] at hc
        cases rest with
        | nil => simp
        | cons d rest2 =>
          simp only [List.get?]
          simp [hcp]
      rw [h0, h1]
      simp only [Option.toList_some, Option.toList_none, List.nil_append,
        List.cons_append]
      congr 1
      exact extractAux_eq_occurrencesSpec rest
    · rw [if_neg h, occurrencesSpec_cons]
      have h0 : tokenAt (a :: c :: rest) 0 = none := by
        simp only [tokenAt, List.get?]
        simp [h]
      rw [h0]
      simp only [Option.toList_none, List.nil_append]
      exact extractAux_eq_occurrencesSpec (c :: rest)

/-- Lexicographic comparison of character lists, the order JS
`Array.prototype.sort()` applies to strings (code-unit comparison; all
extracted tokens are ASCII, where code-unit order equals `Char` order). -/
def charListLe : List Char → List Char → Bool
  | [], _ => true
  | _ :: _, [] => false
  | a :: as, b :: bs => if a = b then charListLe as bs else decide (a < b)

/-- Lexicographic string comparison used by the default JS sort. -/
def strLe (a b : String) : Bool := charListLe a.toList b.toList

/-- `placeholders.sort()`: the default lexicographic JS sort. Embedded with
insertion sort — the comparator is a total order, so any sorting algorithm
yields the same (unique) sorted permutation. -/
def sortStrings (l : List String) : List String :=
  l.insertionSort (fun a b => strLe a b = true)

theorem charListLe_total (a b : List Char) :
    charListLe a b = true ∨ charListLe b a = true := by
  induction a generalizing b with
  | nil => exact Or.inl rfl
  | cons x xs ih =>
    cases b with
    | nil => exact Or.inr rfl
    | cons y ys =>
      by_cases hxy : x = y
      · subst hxy
        simp only [charListLe, if_pos rfl]
        exact ih ys
      · rcases lt_trichotomy x y with h | h | h
        · left
          simp [charListLe, hxy, h]
        · exact absurd h hxy
        · right
          have hyx : ¬ y = x := fun he => hxy he.symm
          simp [charListLe, hyx, h]

theorem charListLe_trans (a b c : List Char)
    (h1 : charListLe a b = true) (h2 : charListLe b c = true) :
    charListLe a c = true := by
  induction a generalizing b c with
  | nil => rfl
  | cons x xs ih =>
    cases b with
    | nil => simp [charListLe] at h1
    | cons y ys =>
      cases c with
      | nil => simp [charListLe] at h2
      | cons z zs =>
        by_cases hxy : x = y
        · subst hxy
          by_cases hyz : x = z
          · subst hyz
            simp only [charListLe, if_pos rfl] at h1 h2 ⊢
            exact ih ys zs h1 h2
          · simp only [charListLe, if_pos rfl] at h1
            simpa [charListLe, hyz] using h2
        · by_cases hyz : y = z
          · subst hyz
            simpa [charListLe, hxy] using h1
          · simp only [charListLe, if_neg hxy, decide_eq_true_eq] at h1
            simp only [charListLe, if_neg hyz, decide_eq_true_eq] at h2
            have hxz : x < z := lt_trans h1 h2
            have hne : ¬ x = z := ne_of_lt hxz
            simp [charListLe, hne, hxz]

theorem sortStrings_perm (l : List String) : (sortStrings l).Perm l :=
  List.perm_insertionSort _ l

theorem sortStrings_sorted (l : List String) :
    (sortStrings l).Sorted (fun a b => strLe a b = true) := by
  haveI : IsTotal String (fun a b => strLe a b = true) :=
    ⟨fun a b => charListLe_total a.toList b.toList⟩
  haveI : IsTrans String (fun a b => strLe a b = true) :=
    ⟨fun a b c => charListLe_trans a.toList b.toList c.toList⟩
  exact List.sorted_insertionSort _ l

/-- The fixed suggested-fix text attached to technical issues in
`validatePoFile` (line 178). -/
def genericFixText : String := "Ensure all placeholders are present in translation"

/-- `checkPlaceholderConsistency(msgid, msgstr)` (validator.ts lines 48-60).
JS `.sort()` mutates in place, so after the comparison on line 53 both
arrays are sorted; the `filter` building the description therefore runs on
the sorted arrays. `JSON.stringify` equality of two string arrays is plain
list equality; `.includes` is list membership. -/
def checkPlaceholderConsistency (msgid msgstr : String) : List ValidationProblem :=
  let originalPlaceholders := sortStrings (extractPlaceholders msgid)
  let translatedPlaceholders := sortStrings (extractPlaceholders msgstr)
  if originalPlaceholders ≠ translatedPlaceholders then
    [⟨ProblemType.placeholder_mismatch,
      "Missing placeholder(s): " ++
        String.intercalate ", "
          (originalPlaceholders.filter (fun p => decide (p ∉ translatedPlaceholders)))⟩]
  else []

/-- One parsed element of the `translations` array of the model response
(validator.ts line 109): `index` is an arbitrary integer, `issues` is
`none` when the field is absent (accessing `.join` on it then throws), and
`suggested_fix` is `none` when absent. -/
structure Validation where
  index : Int
  has_issues : Bool
  issues : Option (List String)
  suggested_fix : Option String
deriving DecidableEq, Repr

/-- JS truthiness of an optional string: `undefined` and `""` are falsy. -/
def truthyOpt : Option String → Bool
  | none => false
  | some s => s ≠ ""

/-- JS array indexing `ts[i]` with an arbitrary integer index: defined only
for `0 ≤ i < ts.length`, `undefined` otherwise. -/
def getAtInt (ts : List Translation) (i : Int) : Option Translation :=
  if 0 ≤ i then ts.get? i.toNat else none

/-- `[...new Set(problems.map(p => JSON.stringify(p)))].map(p => JSON.parse(p))`
(validator.ts line 137): a JS `Set` keeps insertion order, so this removes
every problem structurally equal to an earlier one (`JSON.stringify` is
injective on these fixed-shape records). Embedded as a first-seen
deduplication with an accumulator of already-seen problems. -/
def dedupAux (seen : List ValidationProblem) :
    List ValidationProblem → List ValidationProblem
  | [] => []
  | p :: rest =>
    if p ∈ seen then dedupAux seen rest else p :: dedupAux (p :: seen) rest

/-- The deduplication applied to the problem list of an emitted issue. -/
def dedupKeepFirst (l : List ValidationProblem) : List ValidationProblem :=
  dedupAux [] l

/-- The message of the `TypeError` JS raises when `validation.issues` is
absent and `.join` is called on `undefined` (validator.ts line 129);
modelled up to its exact wording — what matters below is only that it
contains neither `model` nor `not found`. -/
def joinErrorMsg : String := "Cannot read properties of undefined (reading join)"

/-- Processing of one element of `result.translations` (the body of the
loop at validator.ts lines 109-141): skip `null` elements and indices that
do not resolve; otherwise collect placeholder problems, append a
`linguistic_review` problem when `has_issues && suggested_fix &&
suggested_fix !== msgstr` (throwing if `issues` is absent), and emit an
issue exactly when the problem list is non-empty. -/
def entryIssue (ts : List Translation) :
    Option Validation → Except String (Option TranslationIssue)
  | none => .ok none
  | some v =>
    match getAtInt ts (v.index - 1) with
    | none => .ok none
    | some translation =>
      let placeholderProblems :=
        checkPlaceholderConsistency translation.msgid translation.msgstr
      if v.has_issues && truthyOpt v.suggested_fix &&
          decide (v.suggested_fix ≠ some translation.msgstr) then
        match v.issues with
        | none => .error joinErrorMsg
        | some iss =>
          let problems :=
            placeholderProblems ++
              [⟨ProblemType.linguistic_review, String.intercalate "\n" iss⟩]
          if problems ≠ [] then
            .ok (some ⟨translation.msgid, translation.msgstr,
              dedupKeepFirst problems, v.suggested_fix⟩)
          else .ok none
      else
        if placeholderProblems ≠ [] then
          .ok (some ⟨translation.msgid, translation.msgstr,
            dedupKeepFirst placeholderProblems, v.suggested_fix⟩)
        else .ok none

/-- The `for (const validation of result.translations)` loop: issues pushed
before a thrown error are kept (the `issues` array outlives the loop), and
the error aborts the remaining iterations. Returns the pushed issues and
the error that stopped the loop, if any. -/
def processValidations (ts : List Translation) :
    List (Option Validation) → List TranslationIssue × Option String
  | [] => ([], none)
  | ov :: rest =>
    match entryIssue ts ov with
    | .error e => ([], some e)
    | .ok none => processValidations ts rest
    | .ok (some i) =>
      let r := processValidations ts rest
      (i :: r.1, r.2)

/-- `startsWithChars needle hay`: `hay` starts with `needle`. -/
def startsWithChars : List Char → List Char → Bool
  | [], _ => true
  | _ :: _, [] => false
  | a :: as, b :: bs => a = b && startsWithChars as bs

/-- `containsChars needle hay`: `needle` occurs contiguously in `hay`
(JS `String.prototype.includes`). -/
def containsChars (needle : List Char) : List Char → Bool
  | [] => startsWithChars needle []
  | b :: bs => startsWithChars needle (b :: bs) || containsChars needle bs

/-- `hay.includes(needle)` on strings. -/
def containsStr (needle hay : String) : Bool :=
  containsChars needle.toList hay.toList

/-- The rethrow condition of the catch at validator.ts line 143:
`error.message.includes(model) && error.message.includes(not found)`. -/
def isModelNotFound (msg : String) : Bool :=
  containsStr "model" msg && containsStr "not found" msg

/-- The outcome of the model call plus JSON parsing, as seen by the loop at
line 109: an error message (network failure, non-`{` response, malformed
JSON, `result.translations` not iterable) or the parsed `translations`
array, whose elements may be `null`. -/
def BatchOutcome : Type := Except String (List (Option Validation))

/-- `validateBatch` (validator.ts lines 62-153) as a function of the batch
and the model-call outcome: errors raised before or during the response
loop hit the catch at line 142, which rethrows exactly the
model-not-found-shaped ones and otherwise returns the issues accumulated
so far (the outer catch at line 148 rethrows unchanged). -/
def validateBatch (ts : List Translation) (outcome : BatchOutcome) :
    Except String (List TranslationIssue) :=
  match outcome with
  | .error e => if isModelNotFound e then .error e else .ok []
  | .ok vs =>
    let r := processValidations ts vs
    match r.2 with
    | none => .ok r.1
    | some e => if isModelNotFound e then .error e else .ok r.1

/-- The merge step of `validatePoFile` (lines 198-211) for one batch issue:
`Array.find` locates the first accumulated issue with equal `msgid` and
`msgstr`; if found, the problems of the batch issue are appended to it and its
`suggestedFix` is overwritten unless the batch fix equals the generic
technical-pass text; otherwise the batch issue is appended at the end. -/
def mergeIssue : List TranslationIssue → TranslationIssue → List TranslationIssue
  | [], b => [b]
  | i :: rest, b =>
    if i.msgid = b.msgid ∧ i.msgstr = b.msgstr then
      { i with
        problems := i.problems ++ b.problems,
        suggestedFix :=
          if b.suggestedFix = some genericFixText then i.suggestedFix
          else b.suggestedFix } :: rest
    else i :: mergeIssue rest b

/-- JS truthiness of `item.msgstr[0]` (validator.ts line 164): the first
translation string exists and is non-empty. -/
def keepItem (it : PoItem) : Bool :=
  match it.msgstr.head? with
  | some s => s ≠ ""
  | none => false

/-- `validTranslations` (lines 163-165): entries with a truthy first
translation string, mapped to `{msgid, msgstr: item.msgstr[0]}`. -/
def validTranslations (items : List PoItem) : List Translation :=
  (items.filter keepItem).map (fun it => ⟨it.msgid, it.msgstr.headD ""⟩)

/-- The technical pass (lines 171-181): one issue with the generic
suggested fix per entry with a non-empty placeholder-problem list. -/
def technicalIssues (valid : List Translation) : List TranslationIssue :=
  valid.filterMap (fun t =>
    let ps := checkPlaceholderConsistency t.msgid t.msgstr
    if ps ≠ [] then some ⟨t.msgid, t.msgstr, ps, some genericFixText⟩ else none)

/-- The batching loop (lines 188-191): `for (let i = 0; i < n; i += batchSize)
batches.push(valid.slice(i, i + batchSize))`. The loop terminates only for
a positive `batchSize`, which is therefore a hypothesis of the embedding;
the divergence for `batchSize ≤ 0` is modelled by `batchIdx` below. -/
def makeBatchesAux (l : List Translation) (bs : Nat) (hbs : 0 < bs) (i : Nat) :
    List (List Translation) :=
  if _h : i < l.length then
    (l.drop i).take bs :: makeBatchesAux l bs hbs (i + bs)
  else []
termination_by l.length - i
decreasing_by omega

/-- The batch partition of the kept entries. -/
def makeBatches (l : List Translation) (bs : Nat) (hbs : 0 < bs) :
    List (List Translation) :=
  makeBatchesAux l bs hbs 0

/-- The loop index `i` of the batching loop after `k` iterations, for an
integer-valued `batchSize`. -/
def batchIdx (bs : Int) : Nat → Int
  | 0 => 0
  | k + 1 => batchIdx bs k + bs

/-- The per-batch loop of the AI pass (lines 193-212): the issues of each batch
are merged into the accumulated list in order; a batch whose validation
throws aborts the remaining batches (caught at line 215), leaving the
accumulated issues as the result. -/
def runBatches (acc : List TranslationIssue) :
    List (List Translation) → List BatchOutcome → List TranslationIssue
  | [], _ => acc
  | _ :: _, [] => acc
  | batch :: rest, out :: outs =>
    match validateBatch batch out with
    | .error _ => acc
    | .ok batchIssues => runBatches (batchIssues.foldl mergeIssue acc) rest outs

/-- The pure core of `validatePoFile` (lines 155-250) after the file has
been read and parsed: filter, technical pass, batch partition, and the AI
pass driven by the per-batch model outcomes. -/
def validatePoFileCore (items : List PoItem) (bs : Nat) (hbs : 0 < bs)
    (outs : List BatchOutcome) : List TranslationIssue :=
  let valid := validTranslations items
  runBatches (technicalIssues valid) (makeBatches valid bs hbs) outs

/-- `ValidatorConfig` from `src/types.ts`; `provider` is a plain string at
runtime (the `default` case of `initializeModel` handles unrecognized
values). -/
structure ValidatorConfig where
  provider : String
  modelName : Option String
  apiKey : Option String
  baseUrl : Option String
deriving DecidableEq, Repr

/-- The model handle produced by `initializeModel`, recording the chosen
backend and its resolved configuration. -/
inductive ModelSpec where
  | ollama (baseUrl model : String)
  | anthropic (apiKey model : String)
  | openai (apiKey model : String)
deriving DecidableEq, Repr

/-- JS `a || b` on an optional string: the default is used when the value
is absent or empty. -/
def orDefault (o : Option String) (d : String) : String :=
  match o with
  | some s => if s = "" then d else s
  | none => d

/-- `initializeModel` (validator.ts lines 15-41): selects the backend by
the `provider` discriminator, requiring a truthy `apiKey` for the two
hosted providers and failing on an unrecognized provider. -/
def initializeModel (c : ValidatorConfig) : Except String ModelSpec :=
  if c.provider = "ollama" then
    .ok (.ollama (orDefault c.baseUrl "http://localhost:11434")
      (orDefault c.modelName "llama2"))
  else if c.provider = "anthropic" then
    if truthyOpt c.apiKey then
      .ok (.anthropic (c.apiKey.getD "") (orDefault c.modelName "claude-3-sonnet-20240229"))
    else .error "Anthropic API key is required"
  else if c.provider = "openai" then
    if truthyOpt c.apiKey then
      .ok (.openai (c.apiKey.getD "") (orDefault c.modelName "gpt-3.5-turbo"))
    else .error "OpenAI API key is required"
  else .error ("Unsupported provider: " ++ c.provider)

/-- Spec-side first-seen deduplication: keep the first occurrence of
each element, in order, and drop the rest. -/
def dedupFS : List ValidationProblem → List ValidationProblem
  | [] => []
  | p :: rest => p :: dedupFS (rest.filter (fun q => decide (q ≠ p)))
termination_by l => l.length
decreasing_by
  simp only [List.length_cons]
  exact Nat.lt_succ_of_le (List.length_filter_le _ _)

theorem dedupFS_nil : dedupFS [] = [] := by
  rw [dedupFS.eq_def]

theorem dedupFS_cons (p : ValidationProblem) (rest : List ValidationProblem) :
    dedupFS (p :: rest) = p :: dedupFS (rest.filter (fun q => decide (q ≠ p))) := by
  rw [dedupFS.eq_def]

theorem dedupAux_eq_dedupFS (seen : List ValidationProblem)
    (l : List ValidationProblem) :
    dedupAux seen l = dedupFS (l.filter (fun q => decide (q ∉ seen))) := by
  induction l generalizing seen with
  | nil => rw [dedupAux, List.filter_nil, dedupFS_nil]
  | cons p rest ih =>
    by_cases hp : p ∈ seen
    · rw [dedupAux, if_pos hp, List.filter_cons]
      simp only [hp, not_true_eq_false, decide_False]
      exact ih seen
    · rw [dedupAux, if_neg hp, List.filter_cons]
      simp only [hp, not_false_eq_true, decide_True, if_true]
      rw [dedupFS_cons, ih (p :: seen)]
      congr 1
      rw [List.filter_filter]
      refine congrArg dedupFS (List.filter_congr ?_)
      intro q hq
      by_cases hqp : q = p
      · simp [hqp]
      · by_cases hqs : q ∈ seen
        · simp [hqs, hqp, List.mem_cons]
        · simp [hqs, hqp, List.mem_cons]

/-- The embedded Set-based deduplication equals the spec-side first-seen
deduplication. -/
theorem dedupKeepFirst_eq_dedupFS (l : List ValidationProblem) :
    dedupKeepFirst l = dedupFS l := by
  rw [dedupKeepFirst, dedupAux_eq_dedupFS]
  congr 1
  apply List.filter_eq_self.mpr
  intro a _
  simp

theorem dedupFS_sublist (l : List ValidationProblem) : (dedupFS l).Sublist l := by
  match l with
  | [] =>
    rw [dedupFS_nil]
  | p :: rest =>
    rw [dedupFS_cons]
    exact ((dedupFS_sublist (rest.filter _)).trans
      (List.filter_sublist rest)).cons₂ p
termination_by l.length
decreasing_by
  simp only [List.length_cons]
  exact Nat.lt_succ_of_le (List.length_filter_le _ _)

theorem dedupFS_mem (l : List ValidationProblem) (p : ValidationProblem) :
    p ∈ dedupFS l ↔ p ∈ l := by
  constructor
  · intro h
    exact (dedupFS_sublist l).mem h
  · intro h
    induction l using dedupFS.induct with
    | case1 => cases h
    | case2 q rest ih =>
      rw [dedupFS_cons]
      rcases List.mem_cons.mp h with he | hr
      · exact List.mem_cons.mpr (Or.inl he)
      · by_cases hpq : p = q
        · exact List.mem_cons.mpr (Or.inl hpq)
        · refine List.mem_cons.mpr (Or.inr (ih ?_))
          exact List.mem_filter.mpr ⟨hr, by simp [hpq]⟩

theorem dedupFS_nodup (l : List ValidationProblem) : (dedupFS l).Nodup := by
  induction l using dedupFS.induct with
  | case1 => rw [dedupFS_nil]; exact List.nodup_nil
  | case2 q rest ih =>
    rw [dedupFS_cons]
    refine List.nodup_cons.mpr ⟨?_, ih⟩
    intro hmem
    have h1 := (dedupFS_mem _ q).mp hmem
    have h2 := List.mem_filter.mp h1
    simp at h2

theorem extractAux_tokens_shape (l : List Char) :
    ∀ t ∈ extractAux l, ∃ c, isSpecChar c = true ∧ t = String.mk ['%', c] := by
  match l with
  | [] => intro t ht; cases ht
  | [a] => intro t ht; cases ht
  | a :: c :: rest =>
    intro t ht
    rw [extractAux] at ht
    by_cases h : a = '%' && isSpecChar c
    · rw [if_pos h] at ht
      rcases List.mem_cons.mp ht with he | hr
      · rcases Bool.and_eq_true_iff.mp h with ⟨ha, hc⟩
        have ha2 : a = '%' := by simpa using ha
        exact ⟨c, hc, by rw [he, ha2]⟩
      · exact extractAux_tokens_shape rest t hr
    · rw [if_neg h] at ht
      exact extractAux_tokens_shape (c :: rest) t ht
termination_by l.length

theorem extractAux_token_list (ts : List String)
    (h : ∀ t ∈ ts, ∃ c, isSpecChar c = true ∧ t = String.mk ['%', c]) :
    extractAux (ts.map String.toList).flatten = ts := by
  induction ts with
  | nil => rfl
  | cons t rest ih =>
    rcases h t (List.mem_cons_self t rest) with ⟨c, hc, ht⟩
    have hrest := ih (fun u hu => h u (List.mem_cons_of_mem t hu))
    subst ht
    have htl : (String.mk ['%', c]).toList = ['%', c] := rfl
    simp only [List.map_cons, List.flatten_cons, htl, List.cons_append,
      List.nil_append]
    rw [extractAux.eq_def]
    cases hj : (List.map String.toList rest).flatten with
    | nil =>
      rw [hj] at hrest
      simp [hc, hrest]
    | cons d ds =>
      rw [hj] at hrest
      simp [hc, hrest]

theorem toList_foldl_append (acc : String) (ts : List String) :
    (ts.foldl (· ++ ·) acc).toList = acc.toList ++ (ts.map String.toList).flatten := by
  induction ts generalizing acc with
  | nil => simp
  | cons t rest ih =>
    simp only [List.foldl_cons, List.map_cons, List.flatten_cons]
    rw [ih (acc ++ t)]
    have hap : (acc ++ t).toList = acc.toList ++ t.toList := String.data_append acc t
    rw [hap, List.append_assoc]

theorem toList_join (ts : List String) :
    (String.join ts).toList = (ts.map String.toList).flatten := by
  have h := toList_foldl_append "" ts
  simpa [String.join] using h

/-- C7: `extractPlaceholders` returns the left-to-right ordered list of
occurrences of exactly the two-character tokens `%s`, `%d`, `%f`, `%g`
(formalized by `occurrencesSpec`, the by-increasing-position occurrence
list); tokens with width/precision modifiers or positional arguments such
as `%1$s` are never extracted; the function is total and returns `[]` when
no token occurs. -/
theorem C7_extractor_contract :
    (∀ s : String, extractPlaceholders s = occurrencesSpec s.toList) ∧
    extractPlaceholders "%1$s" = [] ∧
    extractPlaceholders "%5d" = [] ∧
    extractPlaceholders "%.2f" = [] ∧
    (∀ s : String, occurrencesSpec s.toList = [] → extractPlaceholders s = []) := by
  refine ⟨fun s => extractAux_eq_occurrencesSpec s.toList, by decide, by decide,
    by decide, fun s h => ?_⟩
  rw [extractPlaceholders, extractAux_eq_occurrencesSpec, h]

/-- Witness for C7 at a concrete token-free string. -/
theorem C7_extractor_contract_witness : extractPlaceholders "abc 100%" = [] :=
  C7_extractor_contract.2.2.2.2 "abc 100%" (by decide)

/-- C8: placeholder extraction is idempotent — extracting from the
concatenation of the extracted tokens returns the same token list — and
order-preserving: the result is the occurrence list by increasing
left-to-right position. -/
theorem C8_extract_idempotent_ordered (s : String) :
    extractPlaceholders (String.join (extractPlaceholders s)) = extractPlaceholders s ∧
    extractPlaceholders s = occurrencesSpec s.toList := by
  constructor
  · show extractAux (String.join (extractPlaceholders s)).toList = extractPlaceholders s
    rw [toList_join]
    exact extractAux_token_list (extractPlaceholders s)
      (extractAux_tokens_shape s.toList)
  · exact extractAux_eq_occurrencesSpec s.toList

/-- C1: the technical checker returns an empty problem list iff the
lexicographically sorted placeholder arrays are equal; when they differ it
returns exactly one `placeholder_mismatch` problem whose description
enumerates precisely the placeholders of the extracted list of the original
that are absent, by list membership, from the extracted list of the
translation. -/
theorem C1_placeholder_check (msgid msgstr : String) :
    (checkPlaceholderConsistency msgid msgstr = [] ↔
      sortStrings (extractPlaceholders msgid) = sortStrings (extractPlaceholders msgstr)) ∧
    (sortStrings (extractPlaceholders msgid) ≠ sortStrings (extractPlaceholders msgstr) →
      ∃ missing : List String,
        checkPlaceholderConsistency msgid msgstr =
          [⟨ProblemType.placeholder_mismatch,
            "Missing placeholder(s): " ++ String.intercalate ", " missing⟩] ∧
        ∀ p, p ∈ missing ↔ (p ∈ extractPlaceholders msgid ∧ p ∉ extractPlaceholders msgstr)) := by
  constructor
  · constructor
    · intro h
      by_contra hne
      rw [checkPlaceholderConsistency] at h
      simp only [if_pos hne] at h
      cases h
    · intro h
      simp [checkPlaceholderConsistency, h]
  · intro hne
    refine ⟨(sortStrings (extractPlaceholders msgid)).filter
      (fun p => decide (p ∉ sortStrings (extractPlaceholders msgstr))), ?_, ?_⟩
    · rw [checkPlaceholderConsistency]
      simp only [if_pos hne]
    · intro p
      rw [List.mem_filter]
      constructor
      · rintro ⟨h1, h2⟩
        refine ⟨(sortStrings_perm _).mem_iff.mp h1, ?_⟩
        intro hmem
        rw [decide_eq_true_eq] at h2
        exact h2 ((sortStrings_perm _).mem_iff.mpr hmem)
      · rintro ⟨h1, h2⟩
        refine ⟨(sortStrings_perm _).mem_iff.mpr h1, ?_⟩
        rw [decide_eq_true_eq]
        intro hmem
        exact h2 ((sortStrings_perm _).mem_iff.mp hmem)

/-- Witness for C1 at the example pair given by the spec. -/
theorem C1_placeholder_check_witness :
    ∃ missing : List String,
      checkPlaceholderConsistency "You have %d courses" "Tu esi pabeidzis kursus" =
        [⟨ProblemType.placeholder_mismatch,
          "Missing placeholder(s): " ++ String.intercalate ", " missing⟩] ∧
      ∀ p, p ∈ missing ↔
        (p ∈ extractPlaceholders "You have %d courses" ∧
          p ∉ extractPlaceholders "Tu esi pabeidzis kursus") :=
  (C1_placeholder_check "You have %d courses" "Tu esi pabeidzis kursus").2 (by decide)

/-- The amended linguistic condition: `has_issues` is true, a
`suggested_fix` is present AND non-empty (JS truthiness), and it differs
from the translation of the entry. -/
def linguisticTrigger (v : Validation) (msgstr : String) : Prop :=
  v.has_issues = true ∧ ∃ s, v.suggested_fix = some s ∧ s ≠ "" ∧ s ≠ msgstr

theorem linguisticTrigger_iff (v : Validation) (m : String) :
    linguisticTrigger v m ↔
      (v.has_issues && truthyOpt v.suggested_fix &&
        decide (v.suggested_fix ≠ some m)) = true := by
  cases hf : v.suggested_fix with
  | none =>
    simp [linguisticTrigger, truthyOpt, hf]
  | some s =>
    by_cases hs : s = ""
    · simp [linguisticTrigger, truthyOpt, hf, hs]
    · by_cases hm : s = m
      · simp [linguisticTrigger, truthyOpt, hf, hs, hm]
      · by_cases hi : v.has_issues
        · simp [linguisticTrigger, truthyOpt, hf, hs, hm, hi]
        · simp [linguisticTrigger, truthyOpt, hf, hi]

/-- C2 counterexample: an entry with `has_issues = true`, a present
`suggested_fix` (the empty string) differing from the translation, and no
placeholder problems. The claim predicts a `linguistic_review` problem and
hence an emitted issue; the code treats the empty string as falsy and
emits nothing. -/
theorem C2_counterexample :
    (⟨1, true, some ["bad"], some ""⟩ : Validation).has_issues = true ∧
    (⟨1, true, some ["bad"], some ""⟩ : Validation).suggested_fix.isSome = true ∧
    (⟨1, true, some ["bad"], some ""⟩ : Validation).suggested_fix ≠ some "b" ∧
    checkPlaceholderConsistency "a" "b" = [] ∧
    validateBatch [⟨"a", "b"⟩]
      (Except.ok [some ⟨1, true, some ["bad"], some ""⟩]) = Except.ok [] := by
  refine ⟨rfl, rfl, by decide, by decide, rfl⟩

/-- C2 (amended: `suggested_fix` must be present AND non-empty, by JS
truthiness): for a response entry resolving to batch pair `t`, the entry
emits an issue iff it accumulates at least one problem, the problems being
the placeholder problems followed by one `linguistic_review` problem (the
newline-joined `issues`) exactly when the amended condition holds; the
emitted problem list is deduplicated by structural equality keeping first
occurrences in order (`dedupFS`). -/
theorem C2_batch_entry (ts : List Translation) (v : Validation) (t : Translation)
    (hget : getAtInt ts (v.index - 1) = some t) :
    (∀ iss, linguisticTrigger v t.msgstr → v.issues = some iss →
      entryIssue ts (some v) =
        Except.ok (some ⟨t.msgid, t.msgstr,
          dedupFS (checkPlaceholderConsistency t.msgid t.msgstr ++
            [⟨ProblemType.linguistic_review, String.intercalate "\n" iss⟩]),
          v.suggested_fix⟩)) ∧
    (¬ linguisticTrigger v t.msgstr →
      entryIssue ts (some v) =
        Except.ok (if checkPlaceholderConsistency t.msgid t.msgstr = [] then none
          else some ⟨t.msgid, t.msgstr,
            dedupFS (checkPlaceholderConsistency t.msgid t.msgstr),
            v.suggested_fix⟩)) := by
  constructor
  · intro iss htrig hiss
    have hcond := (linguisticTrigger_iff v t.msgstr).mp htrig
    rw [entryIssue, hget]
    simp only [hcond, if_true, hiss]
    have hne : checkPlaceholderConsistency t.msgid t.msgstr ++
        [⟨ProblemType.linguistic_review, String.intercalate "\n" iss⟩] ≠ [] := by
      simp
    simp only [ne_eq, hne, not_false_eq_true, if_true, dedupKeepFirst_eq_dedupFS]
  · intro htrig
    have hcond : (v.has_issues && truthyOpt v.suggested_fix &&
        decide (v.suggested_fix ≠ some t.msgstr)) = false := by
      cases h : (v.has_issues && truthyOpt v.suggested_fix &&
          decide (v.suggested_fix ≠ some t.msgstr)) with
      | false => rfl
      | true => exact absurd ((linguisticTrigger_iff v t.msgstr).mpr h) htrig
    rw [entryIssue, hget]
    simp only [hcond, Bool.false_eq_true, if_false]
    by_cases hp : checkPlaceholderConsistency t.msgid t.msgstr = []
    · simp [hp]
    · simp [hp, dedupKeepFirst_eq_dedupFS]

/-- Witness for C2 at a concrete entry with a linguistic finding. -/
theorem C2_batch_entry_witness :
    entryIssue [⟨"Hi %s", "Sveiks"⟩]
      (some ⟨1, true, some ["wrong tone"], some "Sveiki %s"⟩) =
      Except.ok (some ⟨"Hi %s", "Sveiks",
        dedupFS (checkPlaceholderConsistency "Hi %s" "Sveiks" ++
          [⟨ProblemType.linguistic_review, String.intercalate "\n" ["wrong tone"]⟩]),
        some "Sveiki %s"⟩) :=
  (C2_batch_entry [⟨"Hi %s", "Sveiks"⟩] ⟨1, true, some ["wrong tone"], some "Sveiki %s"⟩
      ⟨"Hi %s", "Sveiks"⟩ (by decide)).1 ["wrong tone"]
    ⟨rfl, "Sveiki %s", rfl, by decide, by decide⟩ rfl

/-- The update the merge applies to the first matching accumulated issue. -/
def mergedWith (i b : TranslationIssue) : TranslationIssue :=
  { i with
    problems := i.problems ++ b.problems,
    suggestedFix :=
      if b.suggestedFix = some genericFixText then i.suggestedFix
      else b.suggestedFix }

theorem mergeIssue_no_match (acc : List TranslationIssue) (b : TranslationIssue)
    (h : ∀ i ∈ acc, ¬ (i.msgid = b.msgid ∧ i.msgstr = b.msgstr)) :
    mergeIssue acc b = acc ++ [b] := by
  induction acc with
  | nil => rfl
  | cons i rest ih =>
    rw [mergeIssue, if_neg (h i (List.mem_cons_self i rest))]
    rw [ih (fun j hj => h j (List.mem_cons_of_mem i hj))]
    rfl

theorem mergeIssue_match (b : TranslationIssue) (pre : List TranslationIssue)
    (i : TranslationIssue) (post : List TranslationIssue)
    (hpre : ∀ j ∈ pre, ¬ (j.msgid = b.msgid ∧ j.msgstr = b.msgstr))
    (hi : i.msgid = b.msgid ∧ i.msgstr = b.msgstr) :
    mergeIssue (pre ++ i :: post) b = pre ++ mergedWith i b :: post := by
  induction pre with
  | nil =>
    simp only [List.nil_append]
    rw [mergeIssue, if_pos hi]
    rfl
  | cons j rest ih =>
    simp only [List.cons_append]
    rw [mergeIssue, if_neg (hpre j (List.mem_cons_self j rest))]
    rw [ih (fun k hk => hpre k (List.mem_cons_of_mem j hk))]

/-- C3: for every batch issue, the merge looks up the first accumulated
issue with exactly equal `(msgid, msgstr)`; if one exists its problems are
extended by the batch problems with no cross-merge deduplication and its
`suggestedFix` is overwritten unless the batch fix equals the generic
technical-pass text; if none exists the batch issue is appended at the
end. -/
theorem C3_merge_rule (acc : List TranslationIssue) (b : TranslationIssue) :
    ((∀ i ∈ acc, ¬ (i.msgid = b.msgid ∧ i.msgstr = b.msgstr)) →
      mergeIssue acc b = acc ++ [b]) ∧
    (∀ pre i post, acc = pre ++ i :: post →
      (∀ j ∈ pre, ¬ (j.msgid = b.msgid ∧ j.msgstr = b.msgstr)) →
      (i.msgid = b.msgid ∧ i.msgstr = b.msgstr) →
      mergeIssue acc b = pre ++
        { i with
          problems := i.problems ++ b.problems,
          suggestedFix :=
            if b.suggestedFix = some genericFixText then i.suggestedFix
            else b.suggestedFix } :: post) := by
  constructor
  · exact mergeIssue_no_match acc b
  · intro pre i post hacc hpre hi
    rw [hacc]
    exact mergeIssue_match b pre i post hpre hi

/-- Witness for C3: a technical issue for the same pair is extended by the
batch problems, and the generic fix is not overwritten by itself but is
overwritten by a real fix. -/
theorem C3_merge_rule_witness :
    mergeIssue [⟨"a %s", "b", [⟨ProblemType.placeholder_mismatch, "m"⟩],
        some genericFixText⟩]
      ⟨"a %s", "b", [⟨ProblemType.placeholder_mismatch, "m"⟩], some "a %s fix"⟩ =
      [⟨"a %s", "b",
        [⟨ProblemType.placeholder_mismatch, "m"⟩,
          ⟨ProblemType.placeholder_mismatch, "m"⟩],
        some "a %s fix"⟩] :=
  (C3_merge_rule [⟨"a %s", "b", [⟨ProblemType.placeholder_mismatch, "m"⟩],
      some genericFixText⟩]
    ⟨"a %s", "b", [⟨ProblemType.placeholder_mismatch, "m"⟩], some "a %s fix"⟩).2
    [] _ [] rfl (by intro j hj; cases hj) ⟨rfl, rfl⟩

/-- C5 counterexample: with provider `anthropic` and an apiKey that is
present but empty, construction still throws, though the claimed
condition — provider unrecognized, or hosted provider with `apiKey`
absent — does not hold. -/
theorem C5_counterexample :
    (⟨"anthropic", none, some "", none⟩ : ValidatorConfig).apiKey ≠ none ∧
    initializeModel ⟨"anthropic", none, some "", none⟩ =
      Except.error "Anthropic API key is required" := by
  exact ⟨by decide, rfl⟩

/-- C5 (amended: for the hosted providers construction fails when `apiKey`
is absent OR empty, by JS truthiness): construction fails with a
descriptive error iff the provider discriminator is unrecognized or a
hosted provider has no truthy apiKey; the local provider never fails and
defaults `baseUrl` and the model name. -/
theorem C5_construction (c : ValidatorConfig) :
    ((∃ e, initializeModel c = Except.error e) ↔
      ((c.provider ≠ "ollama" ∧ c.provider ≠ "anthropic" ∧ c.provider ≠ "openai") ∨
        ((c.provider = "anthropic" ∨ c.provider = "openai") ∧
          (c.apiKey = none ∨ c.apiKey = some "")))) ∧
    (c.provider = "ollama" →
      initializeModel c =
        Except.ok (.ollama (orDefault c.baseUrl "http://localhost:11434")
          (orDefault c.modelName "llama2"))) ∧
    (c.provider = "ollama" → c.baseUrl = none → c.modelName = none →
      initializeModel c = Except.ok (.ollama "http://localhost:11434" "llama2")) := by
  have htruthy : truthyOpt c.apiKey = false ↔ (c.apiKey = none ∨ c.apiKey = some "") := by
    cases h : c.apiKey with
    | none => simp [truthyOpt]
    | some s =>
      by_cases hs : s = ""
      · simp [truthyOpt, hs]
      · simp [truthyOpt, hs]
  refine ⟨?_, ?_, ?_⟩
  · by_cases ho : c.provider = "ollama"
    · simp only [initializeModel, if_pos ho]
      constructor
      · rintro ⟨e, he⟩
        cases he
      · rintro (⟨h1, _⟩ | ⟨hh, _⟩)
        · exact absurd ho h1
        · rcases hh with h | h
          · rw [ho] at h
            exact absurd h (by decide)
          · rw [ho] at h
            exact absurd h (by decide)
    · by_cases ha : c.provider = "anthropic"
      · simp only [initializeModel, if_neg ho, if_pos ha]
        by_cases hk : truthyOpt c.apiKey
        · simp only [if_pos hk]
          constructor
          · rintro ⟨e, he⟩
            cases he
          · rintro (⟨_, h2, _⟩ | ⟨_, hke⟩)
            · exact absurd ha h2
            · rw [htruthy.mpr hke] at hk
              cases hk
        · rw [if_neg hk]
          constructor
          · intro _
            right
            refine ⟨Or.inl ha, htruthy.mp ?_⟩
            cases h : truthyOpt c.apiKey with
            | false => rfl
            | true => exact absurd h hk
          · intro _
            exact ⟨"Anthropic API key is required", rfl⟩
      · by_cases hoa : c.provider = "openai"
        · simp only [initializeModel, if_neg ho, if_neg ha, if_pos hoa]
          by_cases hk : truthyOpt c.apiKey
          · simp only [if_pos hk]
            constructor
            · rintro ⟨e, he⟩
              cases he
            · rintro (⟨_, _, h3⟩ | ⟨_, hke⟩)
              · exact absurd hoa h3
              · rw [htruthy.mpr hke] at hk
                cases hk
          · rw [if_neg hk]
            constructor
            · intro _
              right
              refine ⟨Or.inr hoa, htruthy.mp ?_⟩
              cases h : truthyOpt c.apiKey with
              | false => rfl
              | true => exact absurd h hk
            · intro _
              exact ⟨"OpenAI API key is required", rfl⟩
        · simp only [initializeModel, if_neg ho, if_neg ha, if_neg hoa]
          constructor
          · intro _
            exact Or.inl ⟨ho, ha, hoa⟩
          · intro _
            exact ⟨"Unsupported provider: " ++ c.provider, rfl⟩
  · intro ho
    simp [initializeModel, ho]
  · intro ho hb hm
    simp [initializeModel, ho, hb, hm, orDefault]

/-- Witness for C5: an unrecognized provider fails construction, and a
default local configuration succeeds with the default endpoint and model. -/
theorem C5_construction_witness :
    (∃ e, initializeModel ⟨"mistral", none, none, none⟩ = Except.error e) ∧
    initializeModel ⟨"ollama", none, none, none⟩ =
      Except.ok (.ollama "http://localhost:11434" "llama2") :=
  ⟨(C5_construction ⟨"mistral", none, none, none⟩).1.mpr
      (Or.inl ⟨by decide, by decide, by decide⟩),
    (C5_construction ⟨"ollama", none, none, none⟩).2.2 rfl rfl rfl⟩

/-- C4 counterexample: a response-entry-processing error (absent `issues`
array on the second entry) is absorbed, but the batch does NOT contribute
zero AI-derived issues — the issue pushed for the first entry before the
error is returned. -/
theorem C4_counterexample :
    (processValidations [⟨"x", "y"⟩, ⟨"u", "v"⟩]
      [some ⟨1, true, some ["w"], some "z"⟩, some ⟨2, true, none, some "q"⟩]).2 =
        some joinErrorMsg ∧
    isModelNotFound joinErrorMsg = false ∧
    validateBatch [⟨"x", "y"⟩, ⟨"u", "v"⟩]
      (Except.ok [some ⟨1, true, some ["w"], some "z"⟩,
        some ⟨2, true, none, some "q"⟩]) =
      Except.ok [⟨"x", "y", [⟨ProblemType.linguistic_review, "w"⟩], some "z"⟩] ∧
    Except.ok [⟨"x", "y", [⟨ProblemType.linguistic_review, "w"⟩], some "z"⟩] ≠
      (Except.ok [] : Except String (List TranslationIssue)) := by
  refine ⟨rfl, rfl, rfl, ?_⟩
  intro h
  simp at h

/-- C4 (amended: an absorbed error leaves the batch with the AI-derived
issues accumulated before the error, which are zero exactly when the error
precedes the response-entry loop): a model-not-found-shaped error
propagates out of `validateBatch`, and in the orchestrator aborts the
remaining batches while the accumulated issues are still returned; any
other error is absorbed. -/
theorem C4_error_policy :
    (∀ (ts : List Translation) (e : String), isModelNotFound e = true →
      validateBatch ts (Except.error e) = Except.error e) ∧
    (∀ (acc : List TranslationIssue) (batch : List Translation)
      (rest : List (List Translation)) (out : BatchOutcome)
      (outs : List BatchOutcome) (e : String),
      validateBatch batch out = Except.error e →
      runBatches acc (batch :: rest) (out :: outs) = acc) ∧
    (∀ (ts : List Translation) (e : String), isModelNotFound e = false →
      validateBatch ts (Except.error e) = Except.ok []) ∧
    (∀ (ts : List Translation) (vs : List (Option Validation)) (e : String),
      (processValidations ts vs).2 = some e → isModelNotFound e = false →
      validateBatch ts (Except.ok vs) = Except.ok (processValidations ts vs).1) := by
  refine ⟨?_, ?_, ?_, ?_⟩
  · intro ts e he
    rw [validateBatch, he]
    rfl
  · intro acc batch rest out outs e hval
    rw [runBatches, hval]
  · intro ts e he
    rw [validateBatch, he]
    rfl
  · intro ts vs e herr hnot
    rw [validateBatch]
    simp only [herr, hnot]
    rfl

/-- Witness for C4: a model-not-found error propagates and aborts the
batch pass keeping accumulated issues; the join error of the
counterexample batch is absorbed, returning the issue pushed before it. -/
theorem C4_error_policy_witness :
    validateBatch [] (Except.error "model llama2 not found") =
      Except.error "model llama2 not found" ∧
    runBatches [⟨"a", "b", [], some genericFixText⟩]
      [[⟨"a", "b"⟩]] [Except.error "model llama2 not found"] =
      [⟨"a", "b", [], some genericFixText⟩] ∧
    validateBatch [] (Except.error "connection refused") = Except.ok [] ∧
    validateBatch [⟨"x", "y"⟩, ⟨"u", "v"⟩]
      (Except.ok [some ⟨1, true, some ["w"], some "z"⟩,
        some ⟨2, true, none, some "q"⟩]) =
      Except.ok (processValidations [⟨"x", "y"⟩, ⟨"u", "v"⟩]
        [some ⟨1, true, some ["w"], some "z"⟩, some ⟨2, true, none, some "q"⟩]).1 :=
  ⟨C4_error_policy.1 [] "model llama2 not found" rfl,
    C4_error_policy.2.1 [⟨"a", "b", [], some genericFixText⟩] [⟨"a", "b"⟩] []
      (Except.error "model llama2 not found") [] "model llama2 not found" rfl,
    C4_error_policy.2.2.1 [] "connection refused" rfl,
    C4_error_policy.2.2.2 [⟨"x", "y"⟩, ⟨"u", "v"⟩]
      [some ⟨1, true, some ["w"], some "z"⟩, some ⟨2, true, none, some "q"⟩]
      joinErrorMsg rfl rfl⟩

theorem checkPlaceholderConsistency_types (a b : String) :
    ∀ p ∈ checkPlaceholderConsistency a b, p.type = ProblemType.placeholder_mismatch := by
  intro p hp
  simp only [checkPlaceholderConsistency] at hp
  split at hp
  · rcases List.mem_singleton.mp hp with rfl
    rfl
  · cases hp

/-- Every issue of the pipeline carries the `(msgid, msgstr)` of one of
the given translation pairs. -/
def IssueFrom (valid : List Translation) (i : TranslationIssue) : Prop :=
  ∃ t ∈ valid, i.msgid = t.msgid ∧ i.msgstr = t.msgstr

/-- Every problem of an issue has one of the two produced types. -/
def TypesOk (i : TranslationIssue) : Prop :=
  ∀ p ∈ i.problems,
    p.type = ProblemType.placeholder_mismatch ∨
      p.type = ProblemType.linguistic_review

theorem IssueFrom.weaken {valid valid2 : List Translation} {i : TranslationIssue}
    (h : IssueFrom valid i) (hsub : ∀ x ∈ valid, x ∈ valid2) : IssueFrom valid2 i := by
  rcases h with ⟨t, ht, h1, h2⟩
  exact ⟨t, hsub t ht, h1, h2⟩

theorem entryIssue_shape (ts : List Translation) (ov : Option Validation)
    (i : TranslationIssue) (h : entryIssue ts ov = Except.ok (some i)) :
    IssueFrom ts i ∧ TypesOk i := by
  cases ov with
  | none =>
    rw [entryIssue] at h
    simp at h
  | some v =>
    rw [entryIssue] at h
    cases hget : getAtInt ts (v.index - 1) with
    | none =>
      rw [hget] at h
      simp at h
    | some t =>
      rw [hget] at h
      have htm : t ∈ ts := by
        rw [getAtInt] at hget
        split at hget
        · exact List.get?_mem hget
        · cases hget
      simp only at h
      split at h
      · cases hiss : v.issues with
        | none =>
          rw [hiss] at h
          cases h
        | some iss =>
          rw [hiss] at h
          simp only at h
          split at h
          · simp only [Except.ok.injEq, Option.some.injEq] at h
            subst h
            refine ⟨⟨t, htm, rfl, rfl⟩, ?_⟩
            intro p hp
            rw [dedupKeepFirst_eq_dedupFS, dedupFS_mem] at hp
            rcases List.mem_append.mp hp with hc | hl
            · exact Or.inl (checkPlaceholderConsistency_types _ _ p hc)
            · rcases List.mem_singleton.mp hl with rfl
              exact Or.inr rfl
          · simp at h
      · split at h
        · simp only [Except.ok.injEq, Option.some.injEq] at h
          subst h
          refine ⟨⟨t, htm, rfl, rfl⟩, ?_⟩
          intro p hp
          rw [dedupKeepFirst_eq_dedupFS, dedupFS_mem] at hp
          exact Or.inl (checkPlaceholderConsistency_types _ _ p hp)
        · simp at h

theorem processValidations_shape (ts : List Translation)
    (vs : List (Option Validation)) :
    ∀ i ∈ (processValidations ts vs).1, IssueFrom ts i ∧ TypesOk i := by
  induction vs with
  | nil => intro i hi; cases hi
  | cons ov rest ih =>
    intro i hi
    rw [processValidations] at hi
    cases hE : entryIssue ts ov with
    | error e =>
      rw [hE] at hi
      cases hi
    | ok o =>
      cases o with
      | none =>
        rw [hE] at hi
        exact ih i hi
      | some j =>
        rw [hE] at hi
        simp only at hi
        rcases List.mem_cons.mp hi with he | hr
        · subst he
          exact entryIssue_shape ts ov i hE
        · exact ih i hr

theorem validateBatch_shape (ts : List Translation) (out : BatchOutcome)
    (iss : List TranslationIssue) (h : validateBatch ts out = Except.ok iss) :
    ∀ i ∈ iss, IssueFrom ts i ∧ TypesOk i := by
  cases out with
  | error e =>
    rw [validateBatch] at h
    split at h
    · cases h
    · simp only [Except.ok.injEq] at h
      subst h
      intro i hi
      cases hi
  | ok vs =>
    rw [validateBatch] at h
    split at h
    · simp only [Except.ok.injEq] at h
      subst h
      exact processValidations_shape ts vs
    · split at h
      · cases h
      · simp only [Except.ok.injEq] at h
        subst h
        exact processValidations_shape ts vs

theorem mergeIssue_shape (valid : List Translation)
    (acc : List TranslationIssue) (b : TranslationIssue)
    (hacc : ∀ i ∈ acc, IssueFrom valid i ∧ TypesOk i)
    (hb : IssueFrom valid b ∧ TypesOk b) :
    ∀ i ∈ mergeIssue acc b, IssueFrom valid i ∧ TypesOk i := by
  induction acc with
  | nil =>
    intro i hi
    rcases List.mem_singleton.mp hi with rfl
    exact hb
  | cons j rest ih =>
    intro i hi
    rw [mergeIssue] at hi
    by_cases hc : j.msgid = b.msgid ∧ j.msgstr = b.msgstr
    · rw [if_pos hc] at hi
      rcases List.mem_cons.mp hi with he | hr
      · subst he
        have hj := hacc j (List.mem_cons_self j rest)
        refine ⟨hj.1, ?_⟩
        intro p hp
        rcases List.mem_append.mp hp with h1 | h2
        · exact hj.2 p h1
        · exact hb.2 p h2
      · exact hacc i (List.mem_cons_of_mem j hr)
    · rw [if_neg hc] at hi
      rcases List.mem_cons.mp hi with he | hr
      · subst he
        exact hacc i (List.mem_cons_self i rest)
      · exact ih (fun k hk => hacc k (List.mem_cons_of_mem j hk)) i hr

theorem foldl_mergeIssue_shape (valid : List Translation)
    (bis : List TranslationIssue) (acc : List TranslationIssue)
    (hacc : ∀ i ∈ acc, IssueFrom valid i ∧ TypesOk i)
    (hbis : ∀ b ∈ bis, IssueFrom valid b ∧ TypesOk b) :
    ∀ i ∈ bis.foldl mergeIssue acc, IssueFrom valid i ∧ TypesOk i := by
  induction bis generalizing acc with
  | nil => exact hacc
  | cons b rest ih =>
    rw [List.foldl_cons]
    exact ih (mergeIssue acc b)
      (mergeIssue_shape valid acc b hacc (hbis b (List.mem_cons_self b rest)))
      (fun k hk => hbis k (List.mem_cons_of_mem b hk))

theorem runBatches_shape (valid : List Translation)
    (acc : List TranslationIssue) (batches : List (List Translation))
    (outs : List BatchOutcome)
    (hacc : ∀ i ∈ acc, IssueFrom valid i ∧ TypesOk i)
    (hb : ∀ batch ∈ batches, ∀ x ∈ batch, x ∈ valid) :
    ∀ i ∈ runBatches acc batches outs, IssueFrom valid i ∧ TypesOk i := by
  induction batches generalizing acc outs with
  | nil =>
    rw [runBatches]
    exact hacc
  | cons batch rest ih =>
    cases outs with
    | nil =>
      rw [runBatches]
      exact hacc
    | cons out outs2 =>
      rw [runBatches]
      cases hv : validateBatch batch out with
      | error e => exact hacc
      | ok bis =>
        refine ih (bis.foldl mergeIssue acc) outs2 ?_ ?_
        · refine foldl_mergeIssue_shape valid bis acc hacc ?_
          intro b hbm
          have hs := validateBatch_shape batch out bis hv b hbm
          exact ⟨hs.1.weaken (hb batch (List.mem_cons_self batch rest)), hs.2⟩
        · intro batch2 h2
          exact hb batch2 (List.mem_cons_of_mem batch h2)

theorem technicalIssues_shape (valid : List Translation) :
    ∀ i ∈ technicalIssues valid, IssueFrom valid i ∧ TypesOk i := by
  intro i hi
  rw [technicalIssues] at hi
  rcases List.mem_filterMap.mp hi with ⟨t, ht, heq⟩
  simp only at heq
  split at heq
  · simp only [Option.some.injEq] at heq
    subst heq
    refine ⟨⟨t, ht, rfl, rfl⟩, ?_⟩
    intro p hp
    exact Or.inl (checkPlaceholderConsistency_types _ _ p hp)
  · cases heq

theorem makeBatchesAux_flatten (l : List Translation) (bs : Nat) (hbs : 0 < bs)
    (i : Nat) : (makeBatchesAux l bs hbs i).flatten = l.drop i := by
  rw [makeBatchesAux.eq_def]
  by_cases h : i < l.length
  · rw [dif_pos h, List.flatten_cons, makeBatchesAux_flatten l bs hbs (i + bs)]
    rw [← List.drop_drop]
    exact List.take_append_drop bs (l.drop i)
  · rw [dif_neg h, List.flatten_nil]
    exact (List.drop_eq_nil_of_le (Nat.le_of_not_lt h)).symm
termination_by l.length - i
decreasing_by omega

theorem makeBatches_flatten (l : List Translation) (bs : Nat) (hbs : 0 < bs) :
    (makeBatches l bs hbs).flatten = l :=
  makeBatchesAux_flatten l bs hbs 0

theorem makeBatchesAux_length (l : List Translation) (bs : Nat) (hbs : 0 < bs)
    (i : Nat) : ∀ b ∈ makeBatchesAux l bs hbs i, b.length ≤ bs := by
  rw [makeBatchesAux.eq_def]
  by_cases h : i < l.length
  · rw [dif_pos h]
    intro b hb
    rcases List.mem_cons.mp hb with he | hr
    · subst he
      exact List.length_take_le bs (l.drop i)
    · exact makeBatchesAux_length l bs hbs (i + bs) b hr
  · rw [dif_neg h]
    intro b hb
    cases hb
termination_by l.length - i
decreasing_by omega

theorem makeBatches_sub (l : List Translation) (bs : Nat) (hbs : 0 < bs) :
    ∀ batch ∈ makeBatches l bs hbs, ∀ x ∈ batch, x ∈ l := by
  intro batch hb x hx
  have hm : x ∈ (makeBatches l bs hbs).flatten :=
    List.mem_flatten.mpr ⟨batch, hb, hx⟩
  rwa [makeBatches_flatten l bs hbs] at hm

theorem validatePoFileCore_shape (items : List PoItem) (bs : Nat) (hbs : 0 < bs)
    (outs : List BatchOutcome) :
    ∀ i ∈ validatePoFileCore items bs hbs outs,
      IssueFrom (validTranslations items) i ∧ TypesOk i := by
  intro i hi
  rw [validatePoFileCore] at hi
  exact runBatches_shape (validTranslations items) _ _ _
    (technicalIssues_shape (validTranslations items))
    (makeBatches_sub (validTranslations items) bs hbs) i hi

theorem validTranslations_msgstr_ne (items : List PoItem) :
    ∀ t ∈ validTranslations items, t.msgstr ≠ "" := by
  intro t ht
  rw [validTranslations] at ht
  rcases List.mem_map.mp ht with ⟨it, hit, heq⟩
  have hk := (List.mem_filter.mp hit).2
  rw [keepItem] at hk
  cases hh : it.msgstr.head? with
  | none =>
    rw [hh] at hk
    cases hk
  | some s =>
    rw [hh] at hk
    have hs : s ≠ "" := by simpa using hk
    have hstr : t.msgstr = s := by
      rw [← heq]
      show it.msgstr.headD "" = s
      rw [List.headD_eq_head?, hh]
      rfl
    rw [hstr]
    exact hs

theorem runBatches_nil_outs (acc : List TranslationIssue)
    (batches : List (List Translation)) : runBatches acc batches [] = acc := by
  cases batches <;> rw [runBatches]

theorem validatePoFileCore_no_outs (items : List PoItem) (bs : Nat) (hbs : 0 < bs) :
    validatePoFileCore items bs hbs [] = technicalIssues (validTranslations items) := by
  rw [validatePoFileCore]
  exact runBatches_nil_outs _ _

theorem keepItem_iff (it : PoItem) :
    keepItem it = true ↔ ∃ s, it.msgstr.head? = some s ∧ s ≠ "" := by
  rw [keepItem]
  cases hh : it.msgstr.head? with
  | none => simp
  | some s => simp

/-- C6: `validatePoFile` keeps exactly the entries whose first translation
string is non-empty, and every issue the pipeline returns carries the
`(msgid, msgstr)` of a kept entry — whose translation is non-empty — so no
untranslated entry ever appears in the result, regardless of placeholders
in its `msgid`. -/
theorem C6_untranslated_skipped (items : List PoItem) (bs : Nat) (hbs : 0 < bs)
    (outs : List BatchOutcome) :
    (∀ it, it ∈ items.filter keepItem ↔
      (it ∈ items ∧ ∃ s, it.msgstr.head? = some s ∧ s ≠ "")) ∧
    (∀ i ∈ validatePoFileCore items bs hbs outs,
      ∃ t ∈ validTranslations items,
        i.msgid = t.msgid ∧ i.msgstr = t.msgstr ∧ t.msgstr ≠ "") := by
  constructor
  · intro it
    rw [List.mem_filter, keepItem_iff]
  · intro i hi
    rcases (validatePoFileCore_shape items bs hbs outs i hi).1 with ⟨t, ht, h1, h2⟩
    exact ⟨t, ht, h1, h2, validTranslations_msgstr_ne items t ht⟩

/-- Witness for C6 at a one-entry file with a placeholder mismatch. -/
theorem C6_untranslated_skipped_witness :
    ∃ t ∈ validTranslations [⟨"x %d", ["y"]⟩],
      (⟨"x %d", "y",
        [⟨ProblemType.placeholder_mismatch, "Missing placeholder(s): %d"⟩],
        some genericFixText⟩ : TranslationIssue).msgid = t.msgid ∧
      (⟨"x %d", "y",
        [⟨ProblemType.placeholder_mismatch, "Missing placeholder(s): %d"⟩],
        some genericFixText⟩ : TranslationIssue).msgstr = t.msgstr ∧
      t.msgstr ≠ "" :=
  (C6_untranslated_skipped [⟨"x %d", ["y"]⟩] 1 (by decide) []).2
    ⟨"x %d", "y",
      [⟨ProblemType.placeholder_mismatch, "Missing placeholder(s): %d"⟩],
      some genericFixText⟩ (by rw [validatePoFileCore_no_outs]; decide)

/-- C9: every problem in an issue returned by `validateBatch` or by the
`validatePoFile` pipeline has type `placeholder_mismatch` or
`linguistic_review`; the third declared kind `grammar_issue` is never
produced. -/
theorem C9_problem_types :
    (∀ (ts : List Translation) (out : BatchOutcome) (iss : List TranslationIssue),
      validateBatch ts out = Except.ok iss →
      ∀ i ∈ iss, ∀ p ∈ i.problems,
        p.type = ProblemType.placeholder_mismatch ∨
          p.type = ProblemType.linguistic_review) ∧
    (∀ (items : List PoItem) (bs : Nat) (hbs : 0 < bs) (outs : List BatchOutcome),
      ∀ i ∈ validatePoFileCore items bs hbs outs, ∀ p ∈ i.problems,
        p.type = ProblemType.placeholder_mismatch ∨
          p.type = ProblemType.linguistic_review) :=
  ⟨fun ts out iss h i hi p hp => (validateBatch_shape ts out iss h i hi).2 p hp,
    fun items bs hbs outs i hi p hp =>
      (validatePoFileCore_shape items bs hbs outs i hi).2 p hp⟩

/-- Witness for C9 at the technical issue of a one-entry file. -/
theorem C9_problem_types_witness :
    (⟨ProblemType.placeholder_mismatch, "Missing placeholder(s): %d"⟩ :
        ValidationProblem).type = ProblemType.placeholder_mismatch ∨
      (⟨ProblemType.placeholder_mismatch, "Missing placeholder(s): %d"⟩ :
        ValidationProblem).type = ProblemType.linguistic_review :=
  C9_problem_types.2 [⟨"x %d", ["y"]⟩] 1 (by decide) []
    ⟨"x %d", "y",
      [⟨ProblemType.placeholder_mismatch, "Missing placeholder(s): %d"⟩],
      some genericFixText⟩ (by rw [validatePoFileCore_no_outs]; decide)
    ⟨ProblemType.placeholder_mismatch, "Missing placeholder(s): %d"⟩ (by decide)

/-- C10: for a positive batch size the batching loop terminates and
produces contiguous batches of size at most `batchSize` whose in-order
concatenation is exactly the kept-entry list; for `batchSize ≤ 0` the loop
index stays below the entry count forever (`batchIdx` is the index after
`k` iterations), so the loop never terminates when at least one entry is
kept. -/
theorem C10_batching (l : List Translation) (bs : Nat) (hbs : 0 < bs) :
    ((makeBatches l bs hbs).flatten = l ∧
      ∀ b ∈ makeBatches l bs hbs, b.length ≤ bs) ∧
    (∀ bsi : Int, bsi ≤ 0 → ∀ n : Int, 1 ≤ n → ∀ k : Nat, batchIdx bsi k < n) := by
  refine ⟨⟨makeBatches_flatten l bs hbs, makeBatchesAux_length l bs hbs 0⟩, ?_⟩
  intro bsi hbsi n hn k
  have hle : batchIdx bsi k ≤ 0 := by
    induction k with
    | zero => exact le_refl 0
    | succ m ih =>
      rw [batchIdx]
      omega
  omega

/-- Witness for C10: a three-entry list in batches of two concatenates
back, and with batch size zero the loop guard still holds after three
iterations. -/
theorem C10_batching_witness :
    (makeBatches [⟨"a", "b"⟩, ⟨"c", "d"⟩, ⟨"e", "f"⟩] 2 (by decide)).flatten =
      [⟨"a", "b"⟩, ⟨"c", "d"⟩, ⟨"e", "f"⟩] ∧
    batchIdx 0 3 < 1 :=
  ⟨(C10_batching [⟨"a", "b"⟩, ⟨"c", "d"⟩, ⟨"e", "f"⟩] 2 (by decide)).1.1,
    (C10_batching [] 1 (by decide)).2 0 (by decide) 1 (by decide) 3⟩

end TranslationValidator
